import Mathlib

/-!
Verification development for the voidcaster tool: a shallow embedding of the
classification tree walk (treemunger.c, voidcaster.c) and of the patch
application engine (interact.c), with theorems settling the specified
properties against these embeddings.
-/

/-! ## Coordinate model (shared.h module_loc_t) -/

/-- A location in a code module: line and column, both 1-based. -/
structure Loc where
  line : Nat
  col : Nat
deriving DecidableEq

/-- Lexicographic strict order on locations, as used by the while condition of
moveFileUntil: now.line < target.line, or same line and now.col < target.col. -/
def locLt (a b : Loc) : Bool :=
  a.line < b.line || (a.line == b.line && a.col < b.col)

/-- Advance a location over one character: a line feed moves to the next line
and resets the column to 1, any other byte increments the column. -/
def advanceChar (l : Loc) (c : Char) : Loc :=
  if c = '\n' then ⟨l.line + 1, 1⟩ else ⟨l.line, l.col + 1⟩

/-- Advance a location over a list of characters. -/
def advanceLoc (l : Loc) : List Char → Loc
  | [] => l
  | c :: cs => advanceLoc (advanceChar l c) cs

/-! ## Classifier (treemunger.c)

The tree walk is embedded over an explicit node type. Each token produced by
tokenizing a cast carries the boolean result of the annotation check performed
at treemunger.c lines 111-114 (the annotated cursor has the same kind and an
equal type as the cast cursor), plus the start and end coordinates of its
extent. -/

/-- One token of the tokenized extent of a cast expression. -/
structure Token where
  annotMatches : Bool
  startLoc : Loc
  endLoc : Loc
deriving DecidableEq

/-- The castLoc field of descent_state: start and end coordinates of the most
recent cast to void. The four fields are zero-initialized together with the
rest of kiddstate by the designated initializer in visitation. -/
structure CastLoc where
  startLn : Nat
  startCol : Nat
  endLn : Nat
  endCol : Nat
deriving DecidableEq

/-- The token loop of castExtent (treemunger.c lines 106-135): walk the token
list, stopping at the first token whose annotated cursor does not match the
cast; the start coordinates are taken from the first matching token, the end
coordinates from each matching token in turn (so finally from the last one). -/
def castExtentGo : List Token → Bool → CastLoc → CastLoc
  | [], _, acc => acc
  | t :: ts, startSet, acc =>
    if t.annotMatches then
      castExtentGo ts true
        (if startSet then
          { acc with endLn := t.endLoc.line, endCol := t.endLoc.col }
        else
          ⟨t.startLoc.line, t.startLoc.col, t.endLoc.line, t.endLoc.col⟩)
    else acc

/-- castExtent: the extent of a cast, computed from its token list. The
accumulator starts from the zero-initialized castLoc fields of kiddstate. -/
def castExtent (toks : List Token) : CastLoc :=
  castExtentGo toks false ⟨0, 0, 0, 0⟩

/-- The result-type kinds distinguished by the switch at treemunger.c lines
219-250: CXType_Void, CXType_Invalid, CXType_Unexposed, and the default case
covering every other (non-void) return type. -/
inductive RetTypeKind where
  | void
  | invalid
  | unexposed
  | nonVoid
deriving DecidableEq

/-- Resolution of a call to its target declaration: the target cursor is null,
or the target type is CXType_FunctionNoProto, or the target resolved with a
result type of the given kind. -/
inductive CallTarget where
  | null
  | noProto
  | resolved (ret : RetTypeKind)
deriving DecidableEq

/-- The cursor kinds the walk distinguishes. Everything else, including
case statements (CXCursor_CaseStmt, which visitation has no branch for),
behaves like otherKind. We keep caseStmt as an explicit kind so that the
behavior of the walk on a case statement can be stated. -/
inductive NodeKind where
  | compoundStmt
  | cStyleCast (typeIsVoid : Bool) (toks : List Token)
  | callExpr (name : String) (target : CallTarget)
  | binaryOperator
  | caseStmt
  | otherKind
deriving DecidableEq

/-- A tree node: kind, presumed location (file, line, column) and children in
document order. -/
inductive Node : Type where
  | node (kind : NodeKind) (file : String) (line : Nat) (col : Nat)
      (children : List Node)

def Node.kind : Node → NodeKind
  | .node k _ _ _ _ => k

def Node.file : Node → String
  | .node _ f _ _ _ => f

def Node.line : Node → Nat
  | .node _ _ l _ _ => l

def Node.col : Node → Nat
  | .node _ _ _ c _ => c

def Node.children : Node → List Node
  | .node _ _ _ _ cs => cs

/-- descent_state, without the two callback pointers (the emissions are
returned as a list instead). -/
structure DescentState where
  level : Nat
  voidCastAbove : Bool
  compoundStmtAbove : Bool
  castLoc : CastLoc
deriving DecidableEq

/-- The kiddstate computed by visitation for the children of a node: level is
incremented, both flags reset to false and castLoc zero-initialized; then a
compound statement sets compoundStmtAbove, and a C-style cast whose type is
void sets voidCastAbove and stores its extent in castLoc. No other kind, in
particular not a case statement, changes the child state. -/
def childState (dstate : DescentState) (n : Node) : DescentState :=
  let base : DescentState :=
    { level := dstate.level + 1, voidCastAbove := false,
      compoundStmtAbove := false, castLoc := ⟨0, 0, 0, 0⟩ }
  match n.kind with
  | .compoundStmt => { base with compoundStmtAbove := true }
  | .cStyleCast typeIsVoid toks =>
    if typeIsVoid then
      { base with voidCastAbove := true, castLoc := castExtent toks }
    else base
  | _ => base

/-- A finding, as delivered to the missProc and superProc callbacks. -/
inductive Finding where
  | missingVoid (file fn : String) (line col : Nat)
  | superfluousVoid (file fn : String) (startLn startCol endLn endCol : Nat)
deriving DecidableEq

/-- One emission of the walk: a finding handed to a callback, or the warning
line printed for a call whose declaration cannot be found. -/
inductive Output where
  | finding (f : Finding)
  | warning (file fn : String) (line col : Nat)
deriving DecidableEq

/-- The emissions visitation produces for the visited node itself (before
recursing into the children): only a call expression emits anything. An
unresolved or prototype-less target yields the warning; a void return type
under a cast to void yields a superfluousVoid finding located at the castLoc
carried in the parent state; an invalid or unexposed return type yields
nothing; any other return type yields a missingVoid finding at the location of
the call iff compoundStmtAbove holds and voidCastAbove does not. -/
def nodeEmit (dstate : DescentState) (n : Node) : List Output :=
  match n.kind with
  | .callExpr name target =>
    match target with
    | .null => [.warning n.file name n.line n.col]
    | .noProto => [.warning n.file name n.line n.col]
    | .resolved ret =>
      match ret with
      | .void =>
        if dstate.voidCastAbove then
          [.finding (.superfluousVoid n.file name
            dstate.castLoc.startLn dstate.castLoc.startCol
            dstate.castLoc.endLn dstate.castLoc.endCol)]
        else []
      | .invalid => []
      | .unexposed => []
      | .nonVoid =>
        if dstate.compoundStmtAbove && !dstate.voidCastAbove then
          [.finding (.missingVoid n.file name n.line n.col)]
        else []
  | _ => []

mutual

/-- visitation: emit for the node, then recurse into the children with the
child state. -/
def visitation (dstate : DescentState) : Node → List Output
  | .node k f l c cs =>
    nodeEmit dstate (.node k f l c cs)
      ++ visitChildren (childState dstate (.node k f l c cs)) cs

/-- clang_visitChildren: visit each child in document order with the same
state. -/
def visitChildren (dstate : DescentState) : List Node → List Output
  | [] => []
  | n :: ns => visitation dstate n ++ visitChildren dstate ns

end

/-! ## Driver (voidcaster.c)

The exit codes of shared.h / voidcaster.c, the per-file processing and the
file loop of main. -/

/-- enum exitcodes_e. -/
inductive ExitCode where
  | ok
  | usage
  | fileOpen
  | fileParse
  | extSuggest
  | clangFail
  | mm
deriving DecidableEq

/-- The numeric values of the exit codes. -/
def ExitCode.toNat : ExitCode → Nat
  | .ok => 0
  | .usage => 1
  | .fileOpen => 2
  | .fileParse => 3
  | .extSuggest => 4
  | .clangFail => 5
  | .mm => 6

/-- A source file as the front end presents it to processFile: whether
clang_parseTranslationUnit succeeds, whether some diagnostic has severity at
least error, and the children of the translation-unit cursor. -/
structure CFile where
  parsesOk : Bool
  errorDiag : Bool
  roots : List Node

/-- The descent state processFile starts the walk with: level 0, both flags
false, castLoc zero-initialized. -/
def initialState : DescentState :=
  { level := 0, voidCastAbove := false, compoundStmtAbove := false,
    castLoc := ⟨0, 0, 0, 0⟩ }

/-- processFile: a failed parse returns EXITCODE_CLANG_FAIL, an error-severity
diagnostic returns EXITCODE_FILE_PARSE, otherwise the tree is walked and
EXITCODE_OK is returned together with the emissions of the walk. -/
def processFile (f : CFile) : ExitCode × List Output :=
  if f.parsesOk = false then (.clangFail, [])
  else if f.errorDiag = true then (.fileParse, [])
  else (.ok, visitChildren initialState f.roots)

/-- The file loop of main (voidcaster.c lines 592-601): process each file in
turn, stop at the first result other than EXITCODE_OK, return the last
result. -/
def mainLoop : List CFile → ExitCode
  | [] => .ok
  | f :: fs =>
    match (processFile f).1 with
    | .ok => mainLoop fs
    | e => e

/-- The exit code of a run of main that reaches the file loop. The extstatus
flag set by the -s option is read nowhere after getopt, and the static
variable suggest (voidcaster.c line 91) is initialized to false and assigned
nowhere, so the returned code is the result of the file loop alone,
independent of extstatus and of any emitted suggestion. -/
def mainRun (_extstatus : Bool) (files : List CFile) : ExitCode :=
  mainLoop files

/-! ## Line fetching (interact.c fetchFileLines)

The scan over the mapped file, munging lines: the counter ourline starts at
1 and is incremented at each line feed; the loop breaks when the incremented
counter equals linenum, leaving the index just past that line feed; running
off the end of the file is the failure case (lines = NULL, length 0),
modelled as none. -/

/-- The newline-counting loop of fetchFileLines (interact.c lines 374-384),
followed by the past-the-end check and the skip past the line feed: returns
the part of the file after the line feed that made ourline reach linenum, or
none when the loop runs off the end of the file. -/
def scanToLine : List Char → Nat → Nat → Option (List Char)
  | [], _, _ => none
  | c :: rest, ourline, linenum =>
    if c = '\n' then
      if ourline + 1 = linenum then some rest
      else scanToLine rest (ourline + 1) linenum
    else scanToLine rest ourline linenum

/-- The length-counting loop of fetchFileLines (interact.c lines 404-419):
keep the characters of linecount lines, stopping right before the line feed
that would begin line linecount + 1. -/
def takeLines : List Char → Nat → Nat → List Char
  | [], _, _ => []
  | c :: rest, runlncount, linecount =>
    if c = '\n' then
      if runlncount + 1 > linecount then []
      else c :: takeLines rest (runlncount + 1) linecount
    else c :: takeLines rest runlncount linecount

/-- fetchFileLines on the content of the mapped file: none models the failure
path that leaves lines = NULL with length 0 after printing the past-the-end
message. -/
def fetchFileLines (content : List Char) (linenum linecount : Nat) :
    Option (List Char) :=
  match scanToLine content 1 linenum with
  | none => none
  | some rest => some (takeLines rest 1 linecount)

/-- The text interactMissingVoid prints as the line, currently: the result of
fetchFileLines for one line at the location of the finding, with NULL replaced
by the empty string (interact.c lines 457-463). -/
def currentlyPreview (content : List Char) (loc : Loc) : List Char :=
  match fetchFileLines content loc.line 1 with
  | none => []
  | some l => l

/-! ## Patch engine (interact.c)

Modifications, their comparison, and performModifs. The file system is an
association list from file names to contents; a missing entry makes fopen
fail. -/

/-- modif_t: an insertion of text at a location, or a removal between two
locations, both tagged with the file to modify. -/
inductive Modif where
  | insert (file : String) (loc : Loc) (what : List Char)
  | remove (file : String) (fromWhere toWhere : Loc)
deriving DecidableEq

/-- The file field of a modification. -/
def Modif.file : Modif → String
  | .insert f _ _ => f
  | .remove f _ _ => f

/-- modifCharacteristicLoc: where for an insertion, fromWhere for a
removal. -/
def modifCharacteristicLoc : Modif → Loc
  | .insert _ w _ => w
  | .remove _ fr _ => fr

/-- strcmp on character lists, by the numeric values of the characters. -/
def strcmpChars : List Char → List Char → Ordering
  | [], [] => .eq
  | [], _ :: _ => .lt
  | _ :: _, [] => .gt
  | a :: as2, b :: bs2 =>
    if a.toNat < b.toNat then .lt
    else if b.toNat < a.toNat then .gt
    else strcmpChars as2 bs2

/-- strcmp on strings. -/
def strcmp (a b : String) : Ordering :=
  strcmpChars a.data b.data

/-- compareModifs: order by file name first, then by line and column of the
characteristic location. -/
def compareModifs (l r : Modif) : Ordering :=
  match strcmp l.file r.file with
  | .lt => .lt
  | .gt => .gt
  | .eq =>
    let lLoc := modifCharacteristicLoc l
    let rLoc := modifCharacteristicLoc r
    if lLoc.line < rLoc.line then .lt
    else if rLoc.line < lLoc.line then .gt
    else if lLoc.col < rLoc.col then .lt
    else if rLoc.col < lLoc.col then .gt
    else .eq

/-- The weak order induced by compareModifs: not ordered after. -/
def modifLE (a b : Modif) : Prop :=
  compareModifs a b ≠ .gt

instance : DecidableRel modifLE := fun a b =>
  inferInstanceAs (Decidable (compareModifs a b ≠ .gt))

/-- The sorting step of performModifs. qsort is modelled as insertion sort;
for a queue whose keys (file name and characteristic location) are pairwise
distinct, the comparator never returns eq on two distinct elements, so every
sorted rearrangement coincides and the choice of algorithm is immaterial. -/
def sortModifs (l : List Modif) : List Modif :=
  List.insertionSort modifLE l

/-- moveFileUntil: fast-forward the reading stream from right before the
coordinates now to right before the coordinates target, returning the
traversed characters (which are copied to the staging file when a writing
file is given) and the remaining stream; none models the EOF failure. -/
def moveFileUntil (input : List Char) (now target : Loc) :
    Option (List Char × List Char) :=
  if locLt now target then
    match input with
    | [] => none
    | c :: rest =>
      match moveFileUntil rest (advanceChar now c) target with
      | none => none
      | some (copied, rem) => some (c :: copied, rem)
  else some ([], input)

/-- The state of the file currently open in the loop of performModifs: the
name of the reading file, its original content (what the backup will hold),
the part of it not yet read, the content staged for the temporary file, and
the current location cursor. -/
structure OpenFile where
  rFn : String
  orig : List Char
  remaining : List Char
  staged : List Char
  cur : Loc

/-- Apply one modification to the open file: for an insertion, copy up to the
target location and stage the inserted text; for a removal, copy up to
fromWhere, then traverse to toWhere without staging the traversed characters.
none models the I/O troubles failure of either moveFileUntil call. -/
def applyOne (st : OpenFile) (m : Modif) : Option OpenFile :=
  match m with
  | .insert _ loc what =>
    match moveFileUntil st.remaining st.cur loc with
    | none => none
    | some (copied, rest) =>
      some { st with remaining := rest,
                     staged := st.staged ++ copied ++ what, cur := loc }
  | .remove _ fromW toW =>
    match moveFileUntil st.remaining st.cur fromW with
    | none => none
    | some (copied, rest) =>
      match moveFileUntil rest fromW toW with
      | none => none
      | some (_, rest2) =>
        some { st with remaining := rest2,
                       staged := st.staged ++ copied, cur := toW }

/-- Look a file up in the file system. -/
def fsLookup : List (String × List Char) → String → Option (List Char)
  | [], _ => none
  | (n, c) :: rest, x => if n = x then some c else fsLookup rest x

/-- Write a file into the file system, overwriting an existing entry. -/
def fsSet : List (String × List Char) → String → List Char →
    List (String × List Char)
  | [], x, v => [(x, v)]
  | (n, c) :: rest, x, v =>
    if n = x then (x, v) :: rest else (n, c) :: fsSet rest x v

/-- overwriteWithBackup: rename the original file to its backup path (name
with a tilde appended, an existing backup being overwritten), then move the
staging file to the original path. -/
def overwriteWithBackup (fs : List (String × List Char)) (oldP : String)
    (backupContent newContent : List Char) : List (String × List Char) :=
  fsSet (fsSet fs (oldP ++ "~") backupContent) oldP newContent

/-- Finishing the currently open file: copyRest appends the unread remainder
to the staged content, then overwriteWithBackup replaces the file and leaves
the original content at the backup path. -/
def finishFile (fs : List (String × List Char)) (st : OpenFile) :
    List (String × List Char) :=
  overwriteWithBackup fs st.rFn st.orig (st.staged ++ st.remaining)

/-- The loop of performModifs over the sorted modifications. A modification
for the file already open is applied directly; a modification for another
file first finishes the open file, then opens the new one. Any failure (fopen
returning NULL, or moveFileUntil hitting EOF) returns from performModifs at
once: the current file is not replaced and no later modification, for this or
any other file, is attempted. -/
def runLoop : List Modif → List (String × List Char) → Option OpenFile →
    List (String × List Char)
  | [], fs, none => fs
  | [], fs, some st => finishFile fs st
  | m :: ms, fs, some st =>
    if st.rFn = m.file then
      match applyOne st m with
      | none => fs
      | some st2 => runLoop ms fs (some st2)
    else
      match fsLookup (finishFile fs st) m.file with
      | none => finishFile fs st
      | some content =>
        match applyOne ⟨m.file, content, content, [], ⟨1, 1⟩⟩ m with
        | none => finishFile fs st
        | some st2 => runLoop ms (finishFile fs st) (some st2)
  | m :: ms, fs, none =>
    match fsLookup fs m.file with
    | none => fs
    | some content =>
      match applyOne ⟨m.file, content, content, [], ⟨1, 1⟩⟩ m with
      | none => fs
      | some st2 => runLoop ms fs (some st2)

/-- performModifs: nothing to do on an empty queue; otherwise sort the queue
and run the loop. -/
def performModifs (fs : List (String × List Char)) (queue : List Modif) :
    List (String × List Char) :=
  match queue with
  | [] => fs
  | _ :: _ => runLoop (sortModifs queue) fs none

/-! ## Helper lemmas about the walk -/

/-- Unfolding of visitation: the emissions for the node itself, then the
children visited with the child state. -/
theorem visitation_eq (dstate : DescentState) (n : Node) :
    visitation dstate n =
      nodeEmit dstate n ++ visitChildren (childState dstate n) n.children := by
  cases n
  rfl

/-- An emission of a member child is an emission of the child list. -/
theorem mem_visitChildren {dstate : DescentState} {m : Node} {ns : List Node}
    (hm : m ∈ ns) {o : Output} (ho : o ∈ visitation dstate m) :
    o ∈ visitChildren dstate ns := by
  induction ns with
  | nil => cases hm
  | cons n ns ih =>
    rw [visitChildren]
    rcases List.mem_cons.mp hm with h | h
    · exact List.mem_append_left _ (h ▸ ho)
    · exact List.mem_append_right _ (ih h)

/-! ## Theorems for the classification claims -/

/-- C1: for a call expression whose resolved return type is non-void, visited
with parent state compoundStmtAbove = true and voidCastAbove = false, the walk
emits exactly one MissingVoid finding, at the location of that call, before
the emissions of the children; if instead voidCastAbove is true, the call
itself emits nothing at all. -/
theorem classifier_missing_void (dstate : DescentState) (n : Node)
    (name : String)
    (hk : n.kind = NodeKind.callExpr name (CallTarget.resolved RetTypeKind.nonVoid)) :
    (dstate.compoundStmtAbove = true → dstate.voidCastAbove = false →
      visitation dstate n =
        Output.finding (Finding.missingVoid n.file name n.line n.col)
          :: visitChildren (childState dstate n) n.children)
    ∧ (dstate.voidCastAbove = true → nodeEmit dstate n = []) := by
  constructor
  · intro h1 h2
    rw [visitation_eq]
    simp [nodeEmit, hk, h1, h2]
  · intro h
    simp [nodeEmit, hk, h]

/-- Witness for C1 at a concrete call node. -/
theorem classifier_missing_void_witness :
    visitation ⟨1, false, true, ⟨0, 0, 0, 0⟩⟩
        (.node (.callExpr "f" (.resolved .nonVoid)) "t.c" 3 2 [])
      = [Output.finding (Finding.missingVoid "t.c" "f" 3 2)]
    ∧ nodeEmit ⟨1, true, true, ⟨0, 0, 0, 0⟩⟩
        (.node (.callExpr "f" (.resolved .nonVoid)) "t.c" 3 2 []) = [] := by
  constructor
  · have h := (classifier_missing_void ⟨1, false, true, ⟨0, 0, 0, 0⟩⟩
      (.node (.callExpr "f" (.resolved .nonVoid)) "t.c" 3 2 []) "f" rfl).1 rfl rfl
    simpa using h
  · exact (classifier_missing_void ⟨1, true, true, ⟨0, 0, 0, 0⟩⟩
      (.node (.callExpr "f" (.resolved .nonVoid)) "t.c" 3 2 []) "f" rfl).2 rfl

/-- C2: a call expression with void return type that is a direct child of a
cast-to-void node emits exactly one SuperfluousVoid finding, and its range is
the extent castExtent computes from the token list of the cast node -- not
the extent of the wrapped call. The finding also occurs among the emissions of
the walk started at the cast node. -/
theorem classifier_superfluous_extent (dstate : DescentState) (n m : Node)
    (toks : List Token) (name : String)
    (hn : n.kind = NodeKind.cStyleCast true toks)
    (hm : m.kind = NodeKind.callExpr name (CallTarget.resolved RetTypeKind.void))
    (hmem : m ∈ n.children) :
    nodeEmit (childState dstate n) m =
      [Output.finding (Finding.superfluousVoid m.file name
        (castExtent toks).startLn (castExtent toks).startCol
        (castExtent toks).endLn (castExtent toks).endCol)]
    ∧ Output.finding (Finding.superfluousVoid m.file name
        (castExtent toks).startLn (castExtent toks).startCol
        (castExtent toks).endLn (castExtent toks).endCol) ∈ visitation dstate n := by
  have hcs : childState dstate n =
      { level := dstate.level + 1, voidCastAbove := true,
        compoundStmtAbove := false, castLoc := castExtent toks } := by
    simp [childState, hn]
  have h1 : nodeEmit (childState dstate n) m =
      [Output.finding (Finding.superfluousVoid m.file name
        (castExtent toks).startLn (castExtent toks).startCol
        (castExtent toks).endLn (castExtent toks).endCol)] := by
    rw [hcs]
    simp [nodeEmit, hm]
  refine ⟨h1, ?_⟩
  rw [visitation_eq]
  refine List.mem_append_right _ (mem_visitChildren hmem ?_)
  rw [visitation_eq, h1]
  exact List.mem_append_left _ (List.mem_singleton.mpr rfl)

/-- Witness for C2 at a concrete cast node wrapping a void call. -/
theorem classifier_superfluous_extent_witness :
    nodeEmit
      (childState ⟨1, false, true, ⟨0, 0, 0, 0⟩⟩
        (.node (.cStyleCast true
            [⟨true, ⟨3, 5⟩, ⟨3, 6⟩⟩, ⟨true, ⟨3, 6⟩, ⟨3, 10⟩⟩, ⟨true, ⟨3, 10⟩, ⟨3, 11⟩⟩])
          "t.c" 3 5 [.node (.callExpr "h" (.resolved .void)) "t.c" 3 11 []]))
      (.node (.callExpr "h" (.resolved .void)) "t.c" 3 11 [])
      = [Output.finding (Finding.superfluousVoid "t.c" "h" 3 5 3 11)] := by
  have h := (classifier_superfluous_extent ⟨1, false, true, ⟨0, 0, 0, 0⟩⟩
    (.node (.cStyleCast true
        [⟨true, ⟨3, 5⟩, ⟨3, 6⟩⟩, ⟨true, ⟨3, 6⟩, ⟨3, 10⟩⟩, ⟨true, ⟨3, 10⟩, ⟨3, 11⟩⟩])
      "t.c" 3 5 [.node (.callExpr "h" (.resolved .void)) "t.c" 3 11 []])
    (.node (.callExpr "h" (.resolved .void)) "t.c" 3 11 [])
    [⟨true, ⟨3, 5⟩, ⟨3, 6⟩⟩, ⟨true, ⟨3, 6⟩, ⟨3, 10⟩⟩, ⟨true, ⟨3, 10⟩, ⟨3, 11⟩⟩]
    "h" rfl rfl (List.mem_singleton.mpr rfl)).1
  simpa using h

/-- C5 counterexample: visitation has no branch for a case statement, so the
state passed to the children of a case-statement node has compoundStmtAbove
false, and a call with non-void return type that is the direct child of a
case label produces no finding. Here the case-statement node is itself
visited with compoundStmtAbove = true, as it would be inside a switch body. -/
theorem case_stmt_counterexample :
    (childState ⟨1, false, true, ⟨0, 0, 0, 0⟩⟩
        (.node .caseStmt "t.c" 5 1
          [.node (.callExpr "g" (.resolved .nonVoid)) "t.c" 5 9 []])).compoundStmtAbove
      = false
    ∧ visitation ⟨1, false, true, ⟨0, 0, 0, 0⟩⟩
        (.node .caseStmt "t.c" 5 1
          [.node (.callExpr "g" (.resolved .nonVoid)) "t.c" 5 9 []]) = [] := by
  decide

/-- C5 amended: only a compound-statement node sets compoundStmtAbove for its
children; a case-statement node, like every other unhandled kind, passes
compoundStmtAbove = false, so a non-void call that is the direct child of a
case label is not classified as missing a void cast. -/
theorem case_stmt_resets_state (dstate : DescentState) (n m : Node)
    (name : String)
    (hn : n.kind = NodeKind.caseStmt)
    (hm : m.kind = NodeKind.callExpr name (CallTarget.resolved RetTypeKind.nonVoid)) :
    (childState dstate n).compoundStmtAbove = false
    ∧ nodeEmit (childState dstate n) m = []
    ∧ ∀ n2 : Node, n2.kind = NodeKind.compoundStmt →
        (childState dstate n2).compoundStmtAbove = true := by
  have hcs : childState dstate n =
      { level := dstate.level + 1, voidCastAbove := false,
        compoundStmtAbove := false, castLoc := ⟨0, 0, 0, 0⟩ } := by
    simp [childState, hn]
  refine ⟨by rw [hcs], ?_, ?_⟩
  · rw [hcs]
    simp [nodeEmit, hm]
  · intro n2 h2
    simp [childState, h2]

/-- Witness for the amended C5 at a concrete case-statement node. -/
theorem case_stmt_resets_state_witness :
    (childState ⟨1, false, true, ⟨0, 0, 0, 0⟩⟩
        (.node .caseStmt "t.c" 5 1 [])).compoundStmtAbove = false
    ∧ nodeEmit (childState ⟨1, false, true, ⟨0, 0, 0, 0⟩⟩
        (.node .caseStmt "t.c" 5 1 []))
        (.node (.callExpr "g" (.resolved .nonVoid)) "t.c" 5 9 []) = [] := by
  have h := case_stmt_resets_state ⟨1, false, true, ⟨0, 0, 0, 0⟩⟩
    (.node .caseStmt "t.c" 5 1 [])
    (.node (.callExpr "g" (.resolved .nonVoid)) "t.c" 5 9 []) "g" rfl rfl
  exact ⟨h.1, h.2.1⟩

/-- C8: a call whose target declaration is null or declared without a
prototype emits exactly one warning and no finding, then still recurses into
its children; a call whose resolved return type is invalid or unexposed emits
nothing at all and still recurses; in all four situations the node itself
emits no finding. -/
theorem unresolvable_calls_inert (dstate : DescentState) (n : Node)
    (name : String) (target : CallTarget)
    (hk : n.kind = NodeKind.callExpr name target) :
    ((target = CallTarget.null ∨ target = CallTarget.noProto) →
      visitation dstate n =
        Output.warning n.file name n.line n.col
          :: visitChildren (childState dstate n) n.children)
    ∧ ((target = CallTarget.resolved RetTypeKind.invalid ∨
        target = CallTarget.resolved RetTypeKind.unexposed) →
      visitation dstate n = visitChildren (childState dstate n) n.children)
    ∧ ((target = CallTarget.null ∨ target = CallTarget.noProto ∨
        target = CallTarget.resolved RetTypeKind.invalid ∨
        target = CallTarget.resolved RetTypeKind.unexposed) →
      ∀ fd : Finding, Output.finding fd ∉ nodeEmit dstate n) := by
  refine ⟨?_, ?_, ?_⟩
  · rintro (h | h) <;> subst h <;> rw [visitation_eq] <;> simp [nodeEmit, hk]
  · rintro (h | h) <;> subst h <;> rw [visitation_eq] <;> simp [nodeEmit, hk]
  · rintro (h | h | h | h) fd <;> subst h <;> simp [nodeEmit, hk]

/-- Witness for C8 at concrete call nodes with a child each. -/
theorem unresolvable_calls_inert_witness :
    visitation ⟨1, false, true, ⟨0, 0, 0, 0⟩⟩
        (.node (.callExpr "u" .null) "t.c" 4 2 [.node .otherKind "t.c" 4 4 []])
      = [Output.warning "t.c" "u" 4 2]
    ∧ visitation ⟨1, false, true, ⟨0, 0, 0, 0⟩⟩
        (.node (.callExpr "v" (.resolved .unexposed)) "t.c" 6 2 []) = [] := by
  constructor
  · have h := (unresolvable_calls_inert ⟨1, false, true, ⟨0, 0, 0, 0⟩⟩
      (.node (.callExpr "u" .null) "t.c" 4 2 [.node .otherKind "t.c" 4 4 []])
      "u" .null rfl).1 (Or.inl rfl)
    simpa using h
  · have h := (unresolvable_calls_inert ⟨1, false, true, ⟨0, 0, 0, 0⟩⟩
      (.node (.callExpr "v" (.resolved .unexposed)) "t.c" 6 2 [])
      "v" (.resolved .unexposed) rfl).2.1 (Or.inr rfl)
    simpa using h

/-! ## Theorem for the exit-status claim -/

/-- A file whose processing emits a MissingVoid suggestion. -/
def sFlagDemoFile : CFile :=
  { parsesOk := true, errorDiag := false,
    roots := [.node .otherKind "t.c" 1 1
      [.node .compoundStmt "t.c" 1 10
        [.node (.callExpr "f" (.resolved .nonVoid)) "t.c" 3 2 []]]] }

/-- C7: the file loop of main can only return the result of processFile, which
is EXITCODE_OK, EXITCODE_CLANG_FAIL or EXITCODE_FILE_PARSE; the code
EXITCODE_EXT_SUGGEST (4) is returned on no input whatsoever, because the
static flag suggest is never assigned and extstatus is never read after
getopt. In particular a run with -s on a file that does produce a suggestion
exits with EXITCODE_OK, contradicting the usage text of the program. -/
theorem ext_suggest_never_returned :
    (∀ (ext : Bool) (files : List CFile), mainRun ext files ≠ ExitCode.extSuggest)
    ∧ mainRun true [sFlagDemoFile] = ExitCode.ok
    ∧ Output.finding (Finding.missingVoid "t.c" "f" 3 2)
        ∈ (processFile sFlagDemoFile).2
    ∧ ExitCode.ok.toNat = 0 ∧ ExitCode.extSuggest.toNat = 4 := by
  refine ⟨?_, by decide, by decide, rfl, rfl⟩
  intro ext files
  induction files with
  | nil => simp [mainRun, mainLoop]
  | cons f fs ih =>
    have hpf : (processFile f).1 = .clangFail ∨ (processFile f).1 = .fileParse
        ∨ (processFile f).1 = .ok := by
      unfold processFile
      split
      · exact Or.inl rfl
      · split
        · exact Or.inr (Or.inl rfl)
        · exact Or.inr (Or.inr rfl)
    simp only [mainRun, mainLoop] at ih ⊢
    rcases hpf with h | h | h <;> rw [h] <;> simp
    exact ih

/-! ## Theorems for the line-fetch claim -/

/-- The newline-counting loop can never make ourline reach 1, because ourline
starts at 1 or above and is only incremented. -/
theorem scanToLine_linenum_one :
    ∀ (content : List Char) (ourline : Nat), 1 ≤ ourline →
      scanToLine content ourline 1 = none := by
  intro content
  induction content with
  | nil => intro o _; rfl
  | cons c cs ih =>
    intro o ho
    by_cases hc : c = '\n'
    · have h1 : ¬(o + 1 = 1) := by omega
      simp [scanToLine, hc, h1]
      exact ih (o + 1) (by omega)
    · simp [scanToLine, hc]
      exact ih o ho

/-- C10: for every non-empty file, a line-fetch request for line number 1
fails: the newline-counting scan can never match linenum = 1, the function
reports the line as past the end of the file and returns none (the NULL
pointer with zero length); consequently the line, currently preview shown by
interactMissingVoid for a finding located on line 1 is empty. -/
theorem line_one_fetch_fails (content : List Char) (loc : Loc)
    (linecount : Nat) (_hne : content ≠ []) (hl : loc.line = 1) :
    fetchFileLines content 1 linecount = none
    ∧ currentlyPreview content loc = [] := by
  have h := scanToLine_linenum_one content 1 le_rfl
  constructor
  · simp [fetchFileLines, h]
  · simp [currentlyPreview, fetchFileLines, hl, h]

/-- Witness for C10 on a concrete non-empty file. -/
theorem line_one_fetch_fails_witness :
    fetchFileLines "abc".data 1 1 = none
    ∧ currentlyPreview "abc".data ⟨1, 5⟩ = [] :=
  line_one_fetch_fails "abc".data ⟨1, 5⟩ 1 (by decide) rfl

/-! ## Comparison infrastructure for the modification sort -/

/-- Characters with equal numeric value are equal. -/
theorem charToNat_inj (a b : Char) (h : a.toNat = b.toNat) : a = b :=
  Char.ext (UInt32.ext h)

/-- strcmp of a character list with itself is eq. -/
theorem strcmpChars_self : ∀ a : List Char, strcmpChars a a = .eq := by
  intro a
  induction a with
  | nil => rfl
  | cons c cs ih => simp [strcmpChars, ih]

/-- strcmp returns eq only on equal character lists. -/
theorem strcmpChars_eq : ∀ {a b : List Char}, strcmpChars a b = .eq → a = b := by
  intro a
  induction a with
  | nil =>
    intro b h
    cases b with
    | nil => rfl
    | cons x xs => simp [strcmpChars] at h
  | cons c cs ih =>
    intro b h
    cases b with
    | nil => simp [strcmpChars] at h
    | cons x xs =>
      by_cases h1 : c.toNat < x.toNat
      · simp [strcmpChars, h1] at h
      · by_cases h2 : x.toNat < c.toNat
        · simp [strcmpChars, h1, h2] at h
        · have hc : c = x := charToNat_inj c x (by omega)
          simp [strcmpChars, h1, h2] at h
          rw [hc, ih h]

/-- Swapping the arguments of strcmp swaps the ordering. -/
theorem strcmpChars_swap :
    ∀ (a b : List Char), strcmpChars b a = (strcmpChars a b).swap := by
  intro a
  induction a with
  | nil => intro b; cases b <;> rfl
  | cons c cs ih =>
    intro b
    cases b with
    | nil => rfl
    | cons x xs =>
      by_cases h1 : c.toNat < x.toNat
      · have h2 : ¬x.toNat < c.toNat := by omega
        simp [strcmpChars, h1, h2, Ordering.swap]
      · by_cases h2 : x.toNat < c.toNat
        · simp [strcmpChars, h1, h2, Ordering.swap]
        · simp [strcmpChars, h1, h2, ih xs]

/-- strcmp is transitive in its lt result. -/
theorem strcmpChars_lt_trans : ∀ {a b c : List Char},
    strcmpChars a b = .lt → strcmpChars b c = .lt → strcmpChars a c = .lt := by
  intro a
  induction a with
  | nil =>
    intro b c hab hbc
    cases b with
    | nil => simp [strcmpChars] at hab
    | cons y ys =>
      cases c with
      | nil => simp [strcmpChars] at hbc
      | cons z zs => rfl
  | cons x xs ih =>
    intro b c hab hbc
    cases b with
    | nil => simp [strcmpChars] at hab
    | cons y ys =>
      cases c with
      | nil => simp [strcmpChars] at hbc
      | cons z zs =>
        simp only [strcmpChars] at hab hbc ⊢
        by_cases h1 : x.toNat < y.toNat
        · by_cases h2 : y.toNat < z.toNat
          · have : x.toNat < z.toNat := by omega
            simp [this]
          · by_cases h3 : z.toNat < y.toNat
            · simp [h2, h3] at hbc
            · have : x.toNat < z.toNat := by omega
              simp [this]
        · by_cases h4 : y.toNat < x.toNat
          · simp [h1, h4] at hab
          · by_cases h2 : y.toNat < z.toNat
            · have : x.toNat < z.toNat := by omega
              simp [this]
            · by_cases h3 : z.toNat < y.toNat
              · simp [h2, h3] at hbc
              · have e1 : ¬x.toNat < z.toNat := by omega
                have e2 : ¬z.toNat < x.toNat := by omega
                simp [h1, h4] at hab
                simp [h2, h3] at hbc
                simp [e1, e2]
                exact ih hab hbc

/-- strcmp on strings returns eq only on equal strings. -/
theorem strcmp_eq {a b : String} (h : strcmp a b = .eq) : a = b := by
  apply String.ext
  exact strcmpChars_eq h

/-- Swapping the arguments of strcmp on strings swaps the ordering. -/
theorem strcmp_swap (a b : String) : strcmp b a = (strcmp a b).swap :=
  strcmpChars_swap a.data b.data

/-- The sort key of a modification: file name, then line and column of the
characteristic location. -/
def modifKey (m : Modif) : String × Nat × Nat :=
  (m.file, (modifCharacteristicLoc m).line, (modifCharacteristicLoc m).col)


/-- compareModifs returns eq exactly on equal file names and equal
characteristic locations. -/
theorem compareModifs_eq_iff {a b : Modif} :
    compareModifs a b = .eq ↔
      (strcmp a.file b.file = .eq ∧
       (modifCharacteristicLoc a).line = (modifCharacteristicLoc b).line ∧
       (modifCharacteristicLoc a).col = (modifCharacteristicLoc b).col) := by
  unfold compareModifs
  cases hs : strcmp a.file b.file
  · simp
  · simp only []
    split_ifs <;> (try simp) <;> omega
  · simp

/-- compareModifs returns gt exactly when the file compares gt, or the files
are equal and the characteristic location is lexicographically greater. -/
theorem compareModifs_gt_iff {a b : Modif} :
    compareModifs a b = .gt ↔
      (strcmp a.file b.file = .gt ∨
       (strcmp a.file b.file = .eq ∧
        ((modifCharacteristicLoc b).line < (modifCharacteristicLoc a).line ∨
         ((modifCharacteristicLoc a).line = (modifCharacteristicLoc b).line ∧
          (modifCharacteristicLoc b).col < (modifCharacteristicLoc a).col)))) := by
  unfold compareModifs
  cases hs : strcmp a.file b.file
  · simp
  · simp only []
    split_ifs <;> (try simp) <;> omega
  · simp

/-- Normal form of the weak order: the file compares lt, or the files are
equal and the characteristic location is lexicographically at most the
other. -/
theorem compareModifs_ne_gt_iff {a b : Modif} :
    compareModifs a b ≠ .gt ↔
      (strcmp a.file b.file = .lt ∨
       (strcmp a.file b.file = .eq ∧
        ((modifCharacteristicLoc a).line < (modifCharacteristicLoc b).line ∨
         ((modifCharacteristicLoc a).line = (modifCharacteristicLoc b).line ∧
          (modifCharacteristicLoc a).col ≤ (modifCharacteristicLoc b).col)))) := by
  unfold compareModifs
  cases hs : strcmp a.file b.file
  · simp
  · simp only []
    split_ifs <;> (try simp) <;> omega
  · simp

/-- compareModifs returns eq only on modifications with equal keys. -/
theorem compareModifs_eq_key {a b : Modif} (h : compareModifs a b = .eq) :
    modifKey a = modifKey b := by
  rcases compareModifs_eq_iff.mp h with ⟨hf, hl, hc⟩
  unfold modifKey
  rw [strcmp_eq hf, hl, hc]

/-- The weak order of compareModifs is total. -/
instance : IsTotal Modif modifLE := by
  constructor
  intro a b
  by_cases h : compareModifs a b = .gt
  · right
    rw [modifLE, compareModifs_ne_gt_iff]
    rcases compareModifs_gt_iff.mp h with hf | ⟨hf, hl⟩
    · left
      have : strcmp b.file a.file = (strcmp a.file b.file).swap := strcmp_swap a.file b.file
      rw [hf] at this
      exact this
    · right
      have : strcmp b.file a.file = (strcmp a.file b.file).swap := strcmp_swap a.file b.file
      rw [hf] at this
      exact ⟨this, by omega⟩
  · exact Or.inl h

/-- The weak order of compareModifs is transitive. -/
instance : IsTrans Modif modifLE := by
  constructor
  intro a b c hab hbc
  rw [modifLE, compareModifs_ne_gt_iff] at hab hbc ⊢
  rcases hab with hab | ⟨habf, habl⟩
  · rcases hbc with hbc | ⟨hbcf, _⟩
    · exact Or.inl (strcmpChars_lt_trans hab hbc)
    · rw [strcmp_eq hbcf] at hab
      exact Or.inl hab
  · rcases hbc with hbc | ⟨hbcf, hbcl⟩
    · rw [strcmp_eq habf]
      exact Or.inl hbc
    · exact Or.inr ⟨by rw [strcmp_eq habf]; exact hbcf, by omega⟩

/-- Two sorted lists of modifications that are rearrangements of each other
and whose keys are pairwise distinct are equal: with distinct keys the
comparator is antisymmetric, so the sorted order is unique. -/
theorem sorted_perm_distinctKeys_eq :
    ∀ (l1 l2 : List Modif), l1.Perm l2 → List.Sorted modifLE l1 →
      List.Sorted modifLE l2 →
      l1.Pairwise (fun a b => modifKey a ≠ modifKey b) → l1 = l2 := by
  intro l1
  induction l1 with
  | nil =>
    intro l2 p _ _ _
    exact (p.symm.eq_nil).symm
  | cons a t1 ih =>
    intro l2 p s1 s2 d1
    cases l2 with
    | nil => exact absurd p.eq_nil (by simp)
    | cons b t2 =>
      have hab : a = b := by
        by_contra hne
        have hbmem : b ∈ a :: t1 := p.symm.subset (List.mem_cons_self b t2)
        have hamem : a ∈ b :: t2 := p.subset (List.mem_cons_self a t1)
        have hb1 : b ∈ t1 := by
          rcases List.mem_cons.mp hbmem with h | h
          · exact absurd h.symm hne
          · exact h
        have ha2 : a ∈ t2 := by
          rcases List.mem_cons.mp hamem with h | h
          · exact absurd h hne
          · exact h
        have hle1 : modifLE a b := List.rel_of_sorted_cons s1 b hb1
        have hle2 : modifLE b a := List.rel_of_sorted_cons s2 a ha2
        have heq : compareModifs a b = .eq := by
          rw [modifLE, compareModifs_ne_gt_iff] at hle1 hle2
          rw [compareModifs_eq_iff]
          have hswap : strcmp b.file a.file = (strcmp a.file b.file).swap :=
            strcmp_swap a.file b.file
          rcases hle1 with h1 | ⟨h1f, h1l⟩
          · rcases hle2 with h2 | ⟨h2f, h2l⟩
            · rw [h1] at hswap
              rw [h2] at hswap
              exact absurd hswap (by decide)
            · have hff := strcmp_eq h2f
              rw [hff] at h1
              have hself : strcmp a.file a.file = .eq := strcmpChars_self a.file.data
              rw [hself] at h1
              exact absurd h1 (by decide)
          · rcases hle2 with h2 | ⟨h2f, h2l⟩
            · rw [h1f] at hswap
              rw [h2] at hswap
              exact absurd hswap (by decide)
            · exact ⟨h1f, by omega, by omega⟩
        have hkeq := compareModifs_eq_key heq
        exact (List.pairwise_cons.mp d1).1 b hb1 hkeq
      subst hab
      have pt : t1.Perm t2 := p.cons_inv
      have e := ih t2 pt s1.of_cons s2.of_cons (List.pairwise_cons.mp d1).2
      rw [e]

/-- Sorting is determined by the multiset of modifications when the keys are
pairwise distinct. -/
theorem sortModifs_congr {q1 q2 : List Modif} (p : q1.Perm q2)
    (d : q1.Pairwise (fun a b => modifKey a ≠ modifKey b)) :
    sortModifs q1 = sortModifs q2 := by
  have p1 : (sortModifs q1).Perm q1 := List.perm_insertionSort modifLE q1
  have p2 : (sortModifs q2).Perm q2 := List.perm_insertionSort modifLE q2
  have d1 : (sortModifs q1).Pairwise (fun a b => modifKey a ≠ modifKey b) :=
    (List.Perm.pairwise_iff (fun h => Ne.symm h) p1).mpr d
  exact sorted_perm_distinctKeys_eq _ _ (p1.trans (p.trans p2.symm))
    (List.sorted_insertionSort _ _) (List.sorted_insertionSort _ _) d1

/-- C6: feeding the same finite set of modifications, with pairwise distinct
keys (file name and characteristic location), to the patch engine in any
input order produces the same resulting file system, because the application
order is determined by sorting under compareModifs, not by insertion
order. -/
theorem queue_order_independent (fs : List (String × List Char))
    (q1 q2 : List Modif) (p : q1.Perm q2)
    (d : q1.Pairwise (fun a b => modifKey a ≠ modifKey b)) :
    performModifs fs q1 = performModifs fs q2 := by
  cases q1 with
  | nil =>
    have h2 : q2 = [] := p.symm.eq_nil
    rw [h2]
  | cons m ms =>
    cases q2 with
    | nil => exact absurd p.eq_nil (by simp)
    | cons n ns =>
      show runLoop (sortModifs (m :: ms)) fs none
        = runLoop (sortModifs (n :: ns)) fs none
      rw [sortModifs_congr p d]

/-- Witness for C6: two queues holding the same two modifications in the two
possible orders produce the same file system. -/
theorem queue_order_independent_witness :
    performModifs [("a.c", "uv".data), ("b.c", "wx".data)]
        [Modif.insert "b.c" ⟨1, 1⟩ "B".data, Modif.insert "a.c" ⟨1, 1⟩ "A".data]
      = performModifs [("a.c", "uv".data), ("b.c", "wx".data)]
        [Modif.insert "a.c" ⟨1, 1⟩ "A".data, Modif.insert "b.c" ⟨1, 1⟩ "B".data] :=
  queue_order_independent _ _ _
    (List.Perm.swap (Modif.insert "a.c" ⟨1, 1⟩ "A".data)
      (Modif.insert "b.c" ⟨1, 1⟩ "B".data) [])
    (by decide)

/-! ## Properties of moveFileUntil -/

/-- moveFileUntil splits its input: the traversed characters followed by the
remainder. -/
theorem moveFileUntil_append :
    ∀ (input : List Char) (now target : Loc) (copied rest : List Char),
      moveFileUntil input now target = some (copied, rest) →
      input = copied ++ rest := by
  intro input
  induction input with
  | nil =>
    intro now target copied rest h
    rw [moveFileUntil] at h
    by_cases hl : locLt now target = true
    · simp [hl] at h
    · simp [hl] at h
      obtain ⟨h1, h2⟩ := h
      subst h1
      subst h2
      rfl
  | cons c cs ih =>
    intro now target copied rest h
    rw [moveFileUntil] at h
    by_cases hl : locLt now target = true
    · simp only [hl, if_true] at h
      cases hr : moveFileUntil cs (advanceChar now c) target with
      | none => rw [hr] at h; simp at h
      | some pr =>
        rcases pr with ⟨cop2, rem⟩
        rw [hr] at h
        simp at h
        obtain ⟨h1, h2⟩ := h
        subst h1
        subst h2
        rw [ih _ _ _ _ hr]
        rfl
    · simp [hl] at h
      obtain ⟨h1, h2⟩ := h
      subst h1
      subst h2
      rfl

/-- After moveFileUntil succeeds, the cursor advanced over the traversed
characters has reached or passed the target. -/
theorem moveFileUntil_final :
    ∀ (input : List Char) (now target : Loc) (copied rest : List Char),
      moveFileUntil input now target = some (copied, rest) →
      locLt (advanceLoc now copied) target = false := by
  intro input
  induction input with
  | nil =>
    intro now target copied rest h
    rw [moveFileUntil] at h
    by_cases hl : locLt now target = true
    · simp [hl] at h
    · simp [hl] at h
      obtain ⟨h1, h2⟩ := h
      subst h1
      simpa [advanceLoc] using hl
  | cons c cs ih =>
    intro now target copied rest h
    rw [moveFileUntil] at h
    by_cases hl : locLt now target = true
    · simp only [hl, if_true] at h
      cases hr : moveFileUntil cs (advanceChar now c) target with
      | none => rw [hr] at h; simp at h
      | some pr =>
        rcases pr with ⟨cop2, rem⟩
        rw [hr] at h
        simp at h
        obtain ⟨h1, h2⟩ := h
        subst h1
        subst h2
        simpa [advanceLoc] using ih _ _ _ _ hr
    · simp [hl] at h
      obtain ⟨h1, h2⟩ := h
      subst h1
      simpa [advanceLoc] using hl

/-- Every character moveFileUntil traverses lies at a position strictly
before the target: the cursor advanced over any proper leading part of the
traversed characters still compares below the target. -/
theorem moveFileUntil_before_target :
    ∀ (input : List Char) (now target : Loc) (copied rest : List Char),
      moveFileUntil input now target = some (copied, rest) →
      ∀ p : List Char, p <+: copied → p ≠ copied →
        locLt (advanceLoc now p) target = true := by
  intro input
  induction input with
  | nil =>
    intro now target copied rest h
    rw [moveFileUntil] at h
    by_cases hl : locLt now target = true
    · simp [hl] at h
    · simp [hl] at h
      obtain ⟨h1, h2⟩ := h
      subst h1
      intro p hp hne
      exact absurd (List.prefix_nil.mp hp) hne
  | cons c cs ih =>
    intro now target copied rest h
    rw [moveFileUntil] at h
    by_cases hl : locLt now target = true
    · simp only [hl, if_true] at h
      cases hr : moveFileUntil cs (advanceChar now c) target with
      | none => rw [hr] at h; simp at h
      | some pr =>
        rcases pr with ⟨cop2, rem⟩
        rw [hr] at h
        simp at h
        obtain ⟨h1, h2⟩ := h
        subst h1
        subst h2
        intro p hp hne
        cases p with
        | nil => simpa [advanceLoc] using hl
        | cons q qs =>
          rcases hp with ⟨t, ht⟩
          have ht2 : q :: (qs ++ t) = c :: cop2 := ht
          injection ht2 with hq hrest
          subst hq
          have hqs : qs <+: cop2 := ⟨t, hrest⟩
          have hqsne : qs ≠ cop2 := by
            intro he
            exact hne (by rw [he])
          simpa [advanceLoc] using
            ih _ _ _ _ hr qs hqs hqsne
    · simp [hl] at h
      obtain ⟨h1, h2⟩ := h
      subst h1
      intro p hp hne
      exact absurd (List.prefix_nil.mp hp) hne

/-! ## Properties of the file system and of the loop of performModifs -/

/-- Looking up after a write: the written name yields the new content, any
other name is unaffected. -/
theorem fsLookup_fsSet (fs : List (String × List Char)) (n x : String)
    (v : List Char) :
    fsLookup (fsSet fs n v) x = if n = x then some v else fsLookup fs x := by
  induction fs with
  | nil => simp [fsSet, fsLookup]
  | cons p rest ih =>
    rcases p with ⟨pn, pc⟩
    by_cases h1 : pn = n
    · subst h1
      simp only [fsSet, if_pos rfl]
      by_cases h2 : pn = x <;> simp [fsLookup, h2]
    · simp only [fsSet, if_neg h1]
      by_cases h2 : pn = x
      · subst h2
        have h3 : ¬n = pn := fun he => h1 he.symm
        simp [fsLookup, h3]
      · simp [fsLookup, h2, ih]

/-- Appending the backup marker changes the name. -/
theorem ne_appendTilde (s : String) : s ++ "~" ≠ s := by
  intro h
  have hd := congrArg String.data h
  rw [String.data_append] at hd
  have hl := congrArg List.length hd
  simp at hl

/-- Appending the backup marker is injective on names. -/
theorem appendTilde_inj {a b : String} (h : a ++ "~" = b ++ "~") : a = b := by
  have hd := congrArg String.data h
  rw [String.data_append, String.data_append] at hd
  exact String.ext (List.append_cancel_right hd)

/-- applyOne never changes the name of the open file. -/
theorem applyOne_rFn {st st2 : OpenFile} {m : Modif}
    (h : applyOne st m = some st2) : st2.rFn = st.rFn := by
  cases m with
  | insert f loc what =>
    cases hm : moveFileUntil st.remaining st.cur loc with
    | none => simp [applyOne, hm] at h
    | some pr =>
      rcases pr with ⟨cop, rem⟩
      simp only [applyOne, hm, Option.some.injEq] at h
      rw [← h]
  | remove f fromW toW =>
    cases hm : moveFileUntil st.remaining st.cur fromW with
    | none => simp [applyOne, hm] at h
    | some pr =>
      rcases pr with ⟨cop, rem⟩
      simp only [applyOne, hm] at h
      cases hm2 : moveFileUntil rem fromW toW with
      | none => rw [hm2] at h; simp at h
      | some pr2 =>
        rcases pr2 with ⟨skip2, rem2⟩
        rw [hm2] at h
        simp only [Option.some.injEq] at h
        rw [← h]

/-- Unfolding of the loop: empty queue with no open file. -/
theorem runLoop_nil_none (fs : List (String × List Char)) :
    runLoop [] fs none = fs := rfl

/-- Unfolding of the loop: empty queue finishes the open file. -/
theorem runLoop_nil_some (fs : List (String × List Char)) (st : OpenFile) :
    runLoop [] fs (some st) = finishFile fs st := rfl

/-- Unfolding of the loop: next modification with no file open. -/
theorem runLoop_cons_none (m : Modif) (ms : List Modif)
    (fs : List (String × List Char)) :
    runLoop (m :: ms) fs none =
      (match fsLookup fs m.file with
       | none => fs
       | some content =>
         match applyOne ⟨m.file, content, content, [], ⟨1, 1⟩⟩ m with
         | none => fs
         | some st2 => runLoop ms fs (some st2)) := rfl

/-- Unfolding of the loop: next modification with a file open. -/
theorem runLoop_cons_some (m : Modif) (ms : List Modif)
    (fs : List (String × List Char)) (st : OpenFile) :
    runLoop (m :: ms) fs (some st) =
      (if st.rFn = m.file then
        match applyOne st m with
        | none => fs
        | some st2 => runLoop ms fs (some st2)
      else
        match fsLookup (finishFile fs st) m.file with
        | none => finishFile fs st
        | some content =>
          match applyOne ⟨m.file, content, content, [], ⟨1, 1⟩⟩ m with
          | none => finishFile fs st
          | some st2 => runLoop ms (finishFile fs st) (some st2)) := rfl

/-- Unfolding of performModifs on a nonempty queue. -/
theorem performModifs_cons (fs : List (String × List Char)) (m : Modif)
    (ms : List Modif) :
    performModifs fs (m :: ms) = runLoop (sortModifs (m :: ms)) fs none := rfl

/-- Frame property of the loop: a name that is neither the file of any
remaining modification, nor the backup name of such a file, nor the open
file or its backup name, is untouched by the loop. -/
theorem runLoop_frame :
    ∀ (ms : List Modif) (fs : List (String × List Char)) (cur : Option OpenFile)
      (x : String),
      (∀ m ∈ ms, Modif.file m ≠ x ∧ Modif.file m ++ "~" ≠ x) →
      (∀ st, cur = some st → st.rFn ≠ x ∧ st.rFn ++ "~" ≠ x) →
      fsLookup (runLoop ms fs cur) x = fsLookup fs x := by
  intro ms
  induction ms with
  | nil =>
    intro fs cur x hms hcur
    cases cur with
    | none => rfl
    | some st =>
      have h := hcur st rfl
      rw [runLoop_nil_some]
      unfold finishFile overwriteWithBackup
      rw [fsLookup_fsSet, fsLookup_fsSet]
      simp [h.1, h.2]
  | cons m ms ih =>
    intro fs cur x hms hcur
    have hm := hms m (List.mem_cons_self m ms)
    have hrest : ∀ m2 ∈ ms, Modif.file m2 ≠ x ∧ Modif.file m2 ++ "~" ≠ x :=
      fun m2 hm2 => hms m2 (List.mem_cons_of_mem m hm2)
    cases cur with
    | none =>
      rw [runLoop_cons_none]
      split
      · rfl
      next content ho =>
        split
        · rfl
        next st2 ha =>
          refine ih fs (some st2) x hrest ?_
          intro st3 hst3
          injection hst3 with he
          subst he
          have hr := applyOne_rFn ha
          constructor
          · rw [hr]; exact hm.1
          · rw [hr]; exact hm.2
    | some st =>
      have hstc := hcur st rfl
      rw [runLoop_cons_some]
      by_cases hf : st.rFn = m.file
      · rw [if_pos hf]
        split
        · rfl
        next st2 ha =>
          refine ih fs (some st2) x hrest ?_
          intro st3 hst3
          injection hst3 with he
          subst he
          have hr := applyOne_rFn ha
          constructor
          · rw [hr]; exact hstc.1
          · rw [hr]; exact hstc.2
      · rw [if_neg hf]
        have hfin : fsLookup (finishFile fs st) x = fsLookup fs x := by
          unfold finishFile overwriteWithBackup
          rw [fsLookup_fsSet, fsLookup_fsSet]
          simp [hstc.1, hstc.2]
        split
        · exact hfin
        next content ho =>
          split
          · exact hfin
          next st2 ha =>
            have hcond : ∀ st3, (some st2 : Option OpenFile) = some st3 →
                st3.rFn ≠ x ∧ st3.rFn ++ "~" ≠ x := by
              intro st3 hst3
              injection hst3 with he
              subst he
              have hr := applyOne_rFn ha
              constructor
              · rw [hr]; exact hm.1
              · rw [hr]; exact hm.2
            rw [ih (finishFile fs st) (some st2) x hrest hcond]
            exact hfin

/-! ## Theorems for the patch-application claims -/

/-- C3 counterexample: on the file abcd, removing the range from (1,2) to
(1,3) keeps the byte c that sits at location (1,3): performModifs produces
acd, not the ad that dropping the inclusive range up to and including the
character at the to location would produce. -/
theorem remove_inclusive_counterexample :
    fsLookup (performModifs [("f.c", "abcd".data)]
        [Modif.remove "f.c" ⟨1, 2⟩ ⟨1, 3⟩]) "f.c" = some "acd".data
    ∧ "acd".data ≠ "ad".data := by
  decide

/-- C3 amended: whenever the patch engine applies a Remove modification, at
any point of a run (arbitrary open-file state: any file name, original
content, staging content, already-consumed stream and cursor), the bytes it
drops are exactly those traversed from location fromWhere up to but excluding
the byte at location toWhere. Part one: the step copies the bytes before
fromWhere into the staging file, removes exactly the traversed run mid from
the stream, and keeps everything from toWhere on. Part two: every dropped
byte lies at a position strictly before toWhere, and the cursor after the
dropped run has reached or passed toWhere. Part three: on a whole file, the
result is the part before fromWhere followed by the remainder starting at
toWhere. -/
theorem remove_drops_half_open (f : String) (fromW toW : Loc)
    (pre mid rest1 rest2 : List Char) :
    (∀ st : OpenFile,
      moveFileUntil st.remaining st.cur fromW = some (pre, rest1) →
      moveFileUntil rest1 fromW toW = some (mid, rest2) →
      applyOne st (Modif.remove f fromW toW)
        = some ⟨st.rFn, st.orig, rest2, st.staged ++ pre, toW⟩
      ∧ st.remaining = pre ++ (mid ++ rest2))
    ∧ (moveFileUntil rest1 fromW toW = some (mid, rest2) →
      (∀ p : List Char, p <+: mid → p ≠ mid →
        locLt (advanceLoc fromW p) toW = true)
      ∧ locLt (advanceLoc fromW mid) toW = false)
    ∧ (∀ content : List Char,
      moveFileUntil content ⟨1, 1⟩ fromW = some (pre, rest1) →
      moveFileUntil rest1 fromW toW = some (mid, rest2) →
      fsLookup (performModifs [(f, content)] [Modif.remove f fromW toW]) f
        = some (pre ++ rest2)) := by
  refine ⟨?_, ?_, ?_⟩
  · intro st h1 h2
    constructor
    · simp [applyOne, h1, h2]
    · have e1 := moveFileUntil_append _ _ _ _ _ h1
      have e2 := moveFileUntil_append _ _ _ _ _ h2
      rw [e1, e2]
  · intro h2
    exact ⟨moveFileUntil_before_target _ _ _ _ _ h2,
      moveFileUntil_final _ _ _ _ _ h2⟩
  · intro content h1 h2
    rw [performModifs_cons]
    have hsort : sortModifs [Modif.remove f fromW toW]
        = [Modif.remove f fromW toW] := rfl
    rw [hsort, runLoop_cons_none]
    have hfile : Modif.file (Modif.remove f fromW toW) = f := rfl
    split
    next hnone =>
      rw [hfile] at hnone
      simp [fsLookup] at hnone
    next content2 ho =>
      rw [hfile] at ho
      simp [fsLookup] at ho
      subst ho
      split
      next ha => simp [applyOne, h1, h2] at ha
      next st2 ha =>
        simp only [applyOne, h1, h2, Option.some.injEq] at ha
        subst ha
        rw [runLoop_nil_some]
        unfold finishFile overwriteWithBackup
        rw [fsLookup_fsSet]
        simp [hfile]

/-- Witness for the amended C3: the Remove step in a mid-run state (nonempty
staging, original content differing from the stream) drops exactly the byte b
of abcd between (1,2) and (1,3), and on the whole file the engine produces a
followed by cd. -/
theorem remove_drops_half_open_witness :
    (applyOne ⟨"f.c", "zz".data, "abcd".data, "S".data, ⟨1, 1⟩⟩
        (Modif.remove "f.c" ⟨1, 2⟩ ⟨1, 3⟩)
      = some ⟨"f.c", "zz".data, "cd".data, "S".data ++ "a".data, ⟨1, 3⟩⟩
    ∧ "abcd".data = "a".data ++ ("b".data ++ "cd".data))
    ∧ locLt (advanceLoc ⟨1, 2⟩ "b".data) ⟨1, 3⟩ = false
    ∧ fsLookup (performModifs [("f.c", "abcd".data)]
        [Modif.remove "f.c" ⟨1, 2⟩ ⟨1, 3⟩]) "f.c"
      = some ("a".data ++ "cd".data) := by
  have h := remove_drops_half_open "f.c" ⟨1, 2⟩ ⟨1, 3⟩ "a".data "b".data
    "bcd".data "cd".data
  exact ⟨h.1 ⟨"f.c", "zz".data, "abcd".data, "S".data, ⟨1, 1⟩⟩
      (by decide) (by decide),
    (h.2.1 (by decide)).2,
    h.2.2 "abcd".data (by decide) (by decide)⟩

/-- C4 counterexample: two queued insertions for the files a.c and b.c, with
a.c missing so that its fopen fails. performModifs returns at the failure:
the modification queued for the other file b.c is never attempted, so b.c
keeps its content instead of receiving the insertion the claim promises. -/
theorem io_failure_counterexample :
    performModifs [("b.c", "xy".data)]
        [Modif.insert "a.c" ⟨1, 1⟩ "Z".data, Modif.insert "b.c" ⟨1, 1⟩ "Z".data]
      = [("b.c", "xy".data)]
    ∧ fsLookup (performModifs [("b.c", "xy".data)]
        [Modif.insert "a.c" ⟨1, 1⟩ "Z".data, Modif.insert "b.c" ⟨1, 1⟩ "Z".data])
        "b.c" ≠ some "Zxy".data := by
  decide

/-- C4 amended: any I/O failure, at any point of the run, aborts the whole
patching loop, not only the current file. The four conjuncts cover the four
return sites of performModifs: the first fopen failing, reading toward a
target location failing in a freshly opened file, the same failure mid-file
in the already open file, and the two failures after switching away from a
finished file. In every case the loop result is a term that does not mention
the remaining queue: no subsequently queued modification, for this or any
other file name, is attempted; the file being processed at the failure is
left exactly as it was in the file system, with no replacement and no backup;
and in the switch case the previously finished file keeps its rewrite and its
backup (the result is finishFile of it). The last conjunct states the entry
point: a queue whose first sorted modification names an unopenable file
leaves the whole file system untouched. -/
theorem io_failure_aborts_run (m : Modif) (rest : List Modif)
    (fs : List (String × List Char)) :
    (fsLookup fs m.file = none → runLoop (m :: rest) fs none = fs)
    ∧ (∀ content : List Char, fsLookup fs m.file = some content →
        applyOne ⟨m.file, content, content, [], ⟨1, 1⟩⟩ m = none →
        runLoop (m :: rest) fs none = fs)
    ∧ (∀ st : OpenFile, st.rFn = m.file → applyOne st m = none →
        runLoop (m :: rest) fs (some st) = fs)
    ∧ (∀ st : OpenFile, st.rFn ≠ m.file →
        (fsLookup (finishFile fs st) m.file = none →
          runLoop (m :: rest) fs (some st) = finishFile fs st)
        ∧ (∀ content : List Char,
            fsLookup (finishFile fs st) m.file = some content →
            applyOne ⟨m.file, content, content, [], ⟨1, 1⟩⟩ m = none →
            runLoop (m :: rest) fs (some st) = finishFile fs st))
    ∧ (∀ q : List Modif, sortModifs q = m :: rest →
        fsLookup fs m.file = none → performModifs fs q = fs) := by
  have site1 : fsLookup fs m.file = none → runLoop (m :: rest) fs none = fs := by
    intro h
    rw [runLoop_cons_none]
    split
    · rfl
    next content ho =>
      rw [h] at ho
      exact Option.noConfusion ho
  refine ⟨site1, ?_, ?_, ?_, ?_⟩
  · intro content h ha
    rw [runLoop_cons_none]
    split
    · rfl
    next content2 ho =>
      rw [h] at ho
      injection ho with he
      subst he
      split
      · rfl
      next st2 ha2 =>
        rw [ha] at ha2
        exact Option.noConfusion ha2
  · intro st hrfn ha
    rw [runLoop_cons_some, if_pos hrfn]
    split
    · rfl
    next st2 ha2 =>
      rw [ha] at ha2
      exact Option.noConfusion ha2
  · intro st hrfn
    constructor
    · intro h
      rw [runLoop_cons_some, if_neg hrfn]
      split
      · rfl
      next content ho =>
        rw [h] at ho
        exact Option.noConfusion ho
    · intro content h ha
      rw [runLoop_cons_some, if_neg hrfn]
      split
      · rfl
      next content2 ho =>
        rw [h] at ho
        injection ho with he
        subst he
        split
        · rfl
        next st2 ha2 =>
          rw [ha] at ha2
          exact Option.noConfusion ha2
  · intro q hq hopen
    cases q with
    | nil => exact List.noConfusion hq
    | cons a as =>
      rw [performModifs_cons, hq]
      exact site1 hopen

/-- Witness for the amended C4: a three-modification run in which the file
a.c has already been processed, opening b.c fails at the switch, and the
modification queued for c.c is never attempted: the result is exactly the
finish of a.c (its rewrite and backup), with c.c untouched. The second
conjunct exercises the entry point on a queue whose only sorted modification
names a missing file. -/
theorem io_failure_aborts_run_witness :
    runLoop [Modif.insert "b.c" ⟨1, 1⟩ "B".data,
        Modif.insert "c.c" ⟨1, 1⟩ "C".data]
        [("a.c", "x".data), ("c.c", "q".data)]
        (some ⟨"a.c", "x".data, "x".data, "A".data, ⟨1, 1⟩⟩)
      = finishFile [("a.c", "x".data), ("c.c", "q".data)]
          ⟨"a.c", "x".data, "x".data, "A".data, ⟨1, 1⟩⟩
    ∧ performModifs [("b.c", "xy".data)] [Modif.insert "a.c" ⟨1, 1⟩ "Z".data]
      = [("b.c", "xy".data)] := by
  constructor
  · exact ((io_failure_aborts_run (Modif.insert "b.c" ⟨1, 1⟩ "B".data)
      [Modif.insert "c.c" ⟨1, 1⟩ "C".data]
      [("a.c", "x".data), ("c.c", "q".data)]).2.2.2.1
      ⟨"a.c", "x".data, "x".data, "A".data, ⟨1, 1⟩⟩ (by decide)).1 (by decide)
  · exact (io_failure_aborts_run (Modif.insert "a.c" ⟨1, 1⟩ "Z".data) []
      [("b.c", "xy".data)]).2.2.2.2
      [Modif.insert "a.c" ⟨1, 1⟩ "Z".data] (by decide) (by decide)

/-- C9 counterexample: the file a.c~ has zero queued modifications, yet a run
whose queue holds one insertion for a.c overwrites a.c~ with the original
content of a.c (the backup), changing it from y to x. -/
theorem zero_modifs_counterexample :
    fsLookup (performModifs [("a.c", "x".data), ("a.c~", "y".data)]
        [Modif.insert "a.c" ⟨1, 1⟩ "Z".data]) "a.c~" = some "x".data
    ∧ some "x".data ≠ some "y".data := by
  decide

/-- C9 amended: a file with zero queued modifications is left unchanged and
gets no backup, provided it is neither the backup name of a modified file nor
itself shadowed through its own backup name: if no queued modification
references f or f with the backup marker, and f is not the backup name of a
referenced file, then both f and its backup name are untouched by
performModifs; in particular an empty queue touches nothing. -/
theorem zero_modifs_frame (fs : List (String × List Char)) (q : List Modif)
    (f : String)
    (h : ∀ m ∈ q, Modif.file m ≠ f ∧ Modif.file m ≠ f ++ "~"
      ∧ Modif.file m ++ "~" ≠ f) :
    fsLookup (performModifs fs q) f = fsLookup fs f
    ∧ fsLookup (performModifs fs q) (f ++ "~") = fsLookup fs (f ++ "~") := by
  cases q with
  | nil => exact ⟨rfl, rfl⟩
  | cons a as =>
    have hsub : ∀ m ∈ sortModifs (a :: as), m ∈ a :: as :=
      fun m hm => (List.perm_insertionSort modifLE (a :: as)).subset hm
    constructor
    · rw [performModifs_cons]
      apply runLoop_frame
      · intro m hm
        have hq := h m (hsub m hm)
        exact ⟨hq.1, hq.2.2⟩
      · intro st hst
        exact Option.noConfusion hst
    · rw [performModifs_cons]
      apply runLoop_frame
      · intro m hm
        have hq := h m (hsub m hm)
        refine ⟨hq.2.1, ?_⟩
        intro he
        exact hq.1 (appendTilde_inj he)
      · intro st hst
        exact Option.noConfusion hst

/-- Witness for the amended C9: a file a.c not referenced by the queue keeps
its content and gains no backup while c.c is patched. -/
theorem zero_modifs_frame_witness :
    fsLookup (performModifs [("a.c", "x".data), ("c.c", "pq".data)]
        [Modif.insert "c.c" ⟨1, 1⟩ "Z".data]) "a.c"
      = fsLookup [("a.c", "x".data), ("c.c", "pq".data)] "a.c"
    ∧ fsLookup (performModifs [("a.c", "x".data), ("c.c", "pq".data)]
        [Modif.insert "c.c" ⟨1, 1⟩ "Z".data]) ("a.c" ++ "~")
      = fsLookup [("a.c", "x".data), ("c.c", "pq".data)] ("a.c" ++ "~") :=
  zero_modifs_frame [("a.c", "x".data), ("c.c", "pq".data)]
    [Modif.insert "c.c" ⟨1, 1⟩ "Z".data] "a.c" (by decide)
